import Mathlib

/-!
Shallow embedding of the constraint-satisfaction framework in `csp.py`,
together with the built-in constraint kinds from `cryptarithmetic.py`
(`SumConstraint`, `AllDifferentConstraint`) and
`wordsquare/wordsquare.py` (`WordSquareConstraint`).

Modelling conventions:
* variable names are natural numbers, candidate values are integers
  (digits, colors, letter codes);
* a variable's mutable runtime attributes (`value`, `domain`,
  `conflict_set`) live in a `VarState`; the whole mutable store is a
  function `Name → VarState`, and attribute mutation is function update;
* Python sets whose iteration order the interpreter does not specify
  (`problem.constraints`, `variable.constraints`, the `neighbors` set,
  removed-value sets) are modelled as lists in registration order;
* constraint objects are identified by their index in the problem's
  constraint list (Python compares them by object identity);
* the unbounded `while queue:` loop of `_ac3` and the recursion of
  `_recursive_backtracking` take an explicit fuel argument and return
  `none` / a fuel error when it runs out; termination theorems show a
  sufficient fuel always exists;
* `raise ValueError` in `_assign_value_to_variable` and the `assert` in
  `_select_unassigned_variable` are modelled with `Except`.
-/

namespace CSP

abbrev Name := Nat
abbrev Val := Int

/-- The mutable runtime attributes of one `BaseVariable`. -/
structure VarState where
  value : Option Val
  domain : List Val
  conflictSet : List Name
deriving DecidableEq

/-- The mutable store: every variable's current runtime state. -/
abbrev CState := Name → VarState

/-- Attribute mutation on one variable. -/
def setVar (st : CState) (n : Name) (v : VarState) : CState :=
  fun m => if m = n then v else st m

/-- One constraint: the ordered list of covered variables
(`BaseConstraint.variables`) and its `is_satisfiable` test, which may read
the whole store. -/
structure Constr where
  cvars : List Name
  sat : CState → Name → Val → Bool

instance : Inhabited Constr := ⟨⟨[], fun _ _ _ => true⟩⟩

/-- The static part of a `ConstraintSatisfactionProblem`: variable names in
insertion order, the auxiliary flag of each variable, the constraint set (as
a list), and `is_disjoint_constraints`. -/
structure Problem where
  vars : List Name
  auxOf : Name → Bool
  cons : List Constr
  disjoint : Bool

/-- The constraint at a given index. -/
def conAt (p : Problem) (i : Nat) : Constr := p.cons.getD i default

/-- `BaseConstraint.covers`. -/
def covers (c : Constr) (n : Name) : Bool := c.cvars.contains n

/-- `variable.constraints`: the indices of the constraints registered on a
variable. -/
def varCons (p : Problem) (n : Name) : List Nat :=
  (List.range p.cons.length).filter (fun i => covers (conAt p i) n)

/-- `BaseVariable.neighbors`: every variable sharing at least one
constraint with `n`, excluding `n` itself. -/
def neighbors (p : Problem) (n : Name) : List Name :=
  (((varCons p n).flatMap (fun i => (conAt p i).cvars)).filter (fun m => m ≠ n)).dedup

/-- `BaseVariable.find_constraints_between`: all constraints covering both
variables. -/
def find_constraints_between (p : Problem) (n m : Name) : List Nat :=
  (varCons p n).filter (fun i => covers (conAt p i) m)

/-- `BaseVariable.find_constraint_between`: the first constraint covering
both variables, as a singleton list, or the empty list. -/
def find_constraint_between (p : Problem) (n m : Name) : List Nat :=
  match (varCons p n).find? (fun i => covers (conAt p i) m) with
  | some i => [i]
  | none => []

/-- The lookup strategy `_ac3` selects from `is_disjoint_constraints`
(`csp.py`, lines 132-134). -/
def findCs (p : Problem) : Name → Name → List Nat :=
  if p.disjoint then find_constraints_between p else find_constraint_between p

/-- `_remove_inconsistent_values`: collect the domain values inconsistent
with the constraint, then rebuild the domain without them. -/
def remove_inconsistent_values (p : Problem) (st : CState) (n : Name) (ci : Nat) :
    List Val × CState :=
  let c := conAt p ci
  let inconsistent := (st n).domain.filter (fun v => !(c.sat st n v))
  (inconsistent,
   setVar st n { st n with domain := (st n).domain.filter (fun x => !(inconsistent.contains x)) })

/-- The removed-values multimap returned by `_ac3`
(variable → values removed from its domain). -/
abbrev RMap := List (Name × List Val)

/-- `removed[variable].update(inconsistent_values)` / `removed[variable] =
inconsistent_values`: set-union into the multimap. -/
def rmapAdd (r : RMap) (n : Name) (vals : List Val) : RMap :=
  if (r.lookup n).isSome then
    r.map (fun e => if e.1 = n then (e.1, e.2 ++ vals.filter (fun v => !(e.2.contains v))) else e)
  else r ++ [(n, vals)]

/-- The nested re-enqueue loops of `_ac3` (lines 154-157), flattened: for
every neighbor, for every shared constraint found by the selected lookup,
one candidate arc. -/
def neighborArcs (p : Problem) (n : Name) : List (Name × Nat) :=
  (neighbors p n).flatMap (fun nb => (findCs p n nb).map (fun ci => (nb, ci)))

/-- `if (neighbor, cst) not in queue: queue.append(...)` for each candidate
arc in turn. -/
def enqueueNew (q : List (Name × Nat)) (arcs : List (Name × Nat)) : List (Name × Nat) :=
  arcs.foldl (fun acc a => if acc.contains a then acc else acc ++ [a]) q

/-- The initial queue of `_ac3`: every (unassigned variable, constraint)
arc, drawn from the whole constraint set (`scope = none`) or from the
constraints of the triggering variable (`scope = some n`). -/
def ac3Seed (p : Problem) (st : CState) (scope : Option Name) : List (Name × Nat) :=
  (match scope with
   | none => List.range p.cons.length
   | some n => varCons p n).flatMap
    (fun ci => ((conAt p ci).cvars.filter (fun v => (st v).value.isNone)).map (fun v => (v, ci)))

/-- The `while queue:` loop of `_ac3`, with fuel. -/
def ac3Loop (p : Problem) : Nat → List (Name × Nat) → CState → RMap → Option (RMap × CState)
  | 0, _, _, _ => none
  | _ + 1, [], st, removed => some (removed, st)
  | fuel + 1, (n, ci) :: rest, st, removed =>
    let step := remove_inconsistent_values p st n ci
    if step.1.isEmpty then
      ac3Loop p fuel rest step.2 removed
    else
      ac3Loop p fuel (enqueueNew rest (neighborArcs p n)) step.2 (rmapAdd removed n step.1)

/-- `_ac3`. -/
def ac3 (p : Problem) (fuel : Nat) (st : CState) (scope : Option Name) :
    Option (RMap × CState) :=
  ac3Loop p fuel (ac3Seed p st scope) st []

/-- How the solver can abort: `ValueError` from
`_assign_value_to_variable`, the failed `assert` in
`_select_unassigned_variable`, or fuel exhaustion (a modelling artefact of
the unbounded loops). -/
inductive Err where
  | valueErr
  | assertErr
  | fuelOut
deriving DecidableEq

/-- `_assign_value_to_variable`: raise `ValueError` when the value is not
in the current domain, otherwise commit the value and collapse the domain
to the singleton. -/
def assign_value_to_variable (st : CState) (n : Name) (v : Val) : Except Err CState :=
  if (st n).domain.contains v then
    .ok (setVar st n { st n with value := some v, domain := [v] })
  else .error .valueErr

/-- `is_solved`: every non-auxiliary variable has a value. -/
def is_solved (p : Problem) (st : CState) : Bool :=
  p.vars.all (fun n => p.auxOf n || (st n).value.isSome)

/-- Python truthiness of a variable's `value` attribute (`not x.value` is
true for an unassigned variable, but also for a variable assigned `0`). -/
def pyTruthy : Option Val → Bool
  | none => false
  | some v => !(v == 0)

/-- `len([x for x in var.neighbors if not x.value])`: the tie-break count
used by `_select_unassigned_variable`. -/
def falsyDegree (p : Problem) (st : CState) (n : Name) : Nat :=
  ((neighbors p n).filter (fun m => !(pyTruthy (st m).value))).length

/-- One iteration of the `for var in the_variables:` loop of
`_select_unassigned_variable`. -/
def selStep (p : Problem) (st : CState) (choice : Option Name) (v : Name) : Option Name :=
  match choice with
  | none => some v
  | some c =>
    if (st v).domain.length < (st c).domain.length then some v
    else if (st v).domain.length = (st c).domain.length ∧
            falsyDegree p st c < falsyDegree p st v then some v
    else some c

/-- `_select_unassigned_variable`: smallest current domain first, ties
broken toward the larger `falsyDegree`, earlier variable wins remaining
ties. Returns `none` when no variable is unassigned (the `assert`). -/
def select_unassigned_variable (p : Problem) (st : CState) : Option Name :=
  (p.vars.filter (fun n => (st n).value.isNone)).foldl (selStep p st) none

/-- `current_var.conflict_set = {n for n in current_var.neighbors if
n.value is not None}`. -/
def initConflictSet (p : Problem) (st : CState) (n : Name) : CState :=
  setVar st n { st n with conflictSet := (neighbors p n).filter (fun m => (st m).value.isSome) }

/-- `reduced_domains = {current_var: {x for x in current_var.domain if x is
not value}}` — evaluated on the state `st1` in which the assignment has
already collapsed the domain (`csp.py`, lines 62-63). -/
def collapseRecord (st1 : CState) (n : Name) (v : Val) : RMap :=
  [(n, (st1 n).domain.filter (fun x => x ≠ v))]

/-- Merging the AC-3 report into the undo record (`csp.py`, lines 66-70):
union into the current variable's entry, plain store for the others. -/
def mergeChanges (reduced : RMap) (n : Name) (changes : RMap) : RMap :=
  changes.foldl (fun r e => if e.1 = n then rmapAdd r n e.2 else r ++ [(e.1, e.2)]) reduced

/-- The undo loop: `variable.domain.extend(removed_values)` for every entry
of the undo record. -/
def undoReductions (st : CState) (reduced : RMap) : CState :=
  reduced.foldl (fun s e => setVar s e.1 { s e.1 with domain := (s e.1).domain ++ e.2 }) st

/-- `current_var.value = None`. -/
def unassign (st : CState) (n : Name) : CState :=
  setVar st n { st n with value := none }

/-- Absorbing a returned conflict set into `current_var.conflict_set`
(`csp.py`, lines 91-93). -/
def absorbConflicts (st : CState) (n : Name) (cs : List Name) : CState :=
  let merged :=
    cs.foldl (fun acc e => if e = n then acc else if acc.contains e then acc else acc ++ [e])
      (st n).conflictSet
  setVar st n { st n with conflictSet := merged }

/-- The outcome of `_recursive_backtracking`: `self` on success, the local
conflict set on a branch failure. -/
inductive BTResult where
  | solved
  | conflicts (cs : List Name)

/-- The `for value in current_var.ordered_domain():` loop body of
`_recursive_backtracking`. `next` is the recursive call at depth + 1. -/
def btValueLoop (p : Problem) (acFuel : Nat) (depth : Nat) (n : Name)
    (next : CState → Except Err (BTResult × CState)) :
    List Val → CState → Except Err (BTResult × CState)
  | [], st => .ok (.conflicts (st n).conflictSet, st)
  | v :: rest, st => do
    let st1 ← assign_value_to_variable st n v
    let reduced0 := collapseRecord st1 n v
    match ac3 p acFuel st1 (some n) with
    | none => .error .fuelOut
    | some (changes, st2) =>
      let reduced := mergeChanges reduced0 n changes
      match ← next st2 with
      | (.solved, st3) => .ok (.solved, st3)
      | (.conflicts cs, st3) =>
        let st4 := unassign (undoReductions st3 reduced) n
        if !(cs.contains n) ∧ 0 < depth then .ok (.conflicts cs, st4)
        else btValueLoop p acFuel depth n next rest (absorbConflicts st4 n cs)

/-- `_recursive_backtracking`, with fuel for the recursion depth. -/
def recursive_backtracking (p : Problem) (acFuel : Nat) :
    Nat → Nat → CState → Except Err (BTResult × CState)
  | 0, _, _ => .error .fuelOut
  | fuel + 1, depth, st =>
    if is_solved p st then .ok (.solved, st)
    else
      match select_unassigned_variable p st with
      | none => .error .assertErr
      | some n =>
        let st1 := initConflictSet p st n
        btValueLoop p acFuel depth n
          (fun s => recursive_backtracking p acFuel fuel (depth + 1) s)
          ((st1 n).domain) st1

/-- `solve`: one whole-problem AC-3 pass, then backtracking from depth 0. -/
def solve (p : Problem) (acFuel btFuel : Nat) (st : CState) :
    Except Err (BTResult × CState) :=
  match ac3 p acFuel st none with
  | none => .error .fuelOut
  | some (_, st1) => recursive_backtracking p acFuel btFuel 0 st1

/-!  The built-in constraint kinds. -/

/-- The `while all(tmp_vars_domains.values()):` loop of
`AllDifferentConstraint.is_satisfiable`. The temporary domains are an
association list in dictionary (insertion) order; `singletons[0]` is the
first entry whose temporary domain has exactly one element. Note the forced
value `d` is read from the variable's real domain
(`list(singletons[0].domain)[0]`), not from the temporary domain. Each
iteration deletes one entry, so `tmp.length + 1` fuel always suffices. -/
def allDiffLoop (st : CState) : Nat → List (Name × List Val) → Bool
  | 0, _ => false
  | fuel + 1, tmp =>
    if tmp.all (fun e => !e.2.isEmpty) then
      match tmp.find? (fun e => e.2.length == 1) with
      | some s =>
        let d := ((st s.1).domain).headD 0
        allDiffLoop st fuel ((tmp.map (fun e => (e.1, e.2.erase d))).eraseP (fun e => e.1 == s.1))
      | none => true
    else false

/-- `AllDifferentConstraint.is_satisfiable`. -/
def allDifferentIsSatisfiable (cvars : List Name) (st : CState) (n : Name) (v : Val) : Bool :=
  if (st n).value.isSome then true
  else if (cvars.filterMap (fun m => (st m).value)).contains v then false
  else
    let tmp := (cvars.filter (fun m => !(pyTruthy (st m).value) && m ≠ n)).map
      (fun m => (m, ((st m).domain).erase v))
    allDiffLoop st (tmp.length + 1) tmp

/-- An `AllDifferentConstraint` over the given variables. -/
def allDiffConstraint (cvars : List Name) : Constr :=
  ⟨cvars, fun st n v => allDifferentIsSatisfiable cvars st n v⟩


/-- `itertools.product` over a list of domains (first domain outermost). -/
def allTuples : List (List Val) → List (List Val)
  | [] => [[]]
  | d :: ds => d.flatMap (fun v => (allTuples ds).map (fun t => v :: t))

/-- `sum(combination[1][i] * (10 ** self.right_vars[i].aux))`: the
right-hand side of a `SumConstraint`, weighting the auxiliary carry
variable by 10 (Python `10 ** True`). -/
def sumRight (p : Problem) (rightVars : List Name) (t : List Val) : Val :=
  (List.zip t rightVars).foldl (fun acc e => acc + e.1 * (if p.auxOf e.2 then 10 else 1)) 0

/-- `SumConstraint.is_satisfiable`, with its temporary replacement of the
queried variable's domain made explicit: the result and the store after the
`finally:` restoration. -/
def sumIsSatisfiable (p : Problem) (leftVars rightVars : List Name) (st : CState)
    (n : Name) (v : Val) : Bool × CState :=
  let oldDomain := (st n).domain
  let st' := setVar st n { st n with domain := [v] }
  let found := (allTuples (leftVars.map (fun m => (st' m).domain))).any (fun lt =>
    (allTuples (rightVars.map (fun m => (st' m).domain))).any (fun rt =>
      lt.sum == sumRight p rightVars rt))
  (found, setVar st' n { st' n with domain := oldDomain })

/-- `WordSquareConstraint.is_satisfiable`: the words whose letter at this
variable's index is `v`, filtered by every other covered variable's domain;
the Python caller uses the returned list's truthiness. Letters are coded as
integers and `lm` is the class-level `lettermap`. -/
def wordSquareIsSatisfiable (lm : Nat → Val → List (List Val)) (cvars : List Name)
    (st : CState) (n : Name) (v : Val) : List (List Val) :=
  cvars.foldl (fun ws m =>
    if m = n then ws
    else ws.filter (fun w => ((st m).domain).contains (w.getD (cvars.indexOf m) 0)))
    (lm (cvars.indexOf n) v)

/-- A `SumConstraint` over its left and right variables, as a constraint
object (its `is_satisfiable` result is the Bool component; the store it
returns is shown below to equal the input store). -/
def sumConstraint (p : Problem) (leftVars rightVars : List Name) : Constr :=
  ⟨leftVars ++ rightVars, fun st n v => (sumIsSatisfiable p leftVars rightVars st n v).1⟩

/-- A `WordSquareConstraint`, as a constraint object (the Python caller
uses the word list's truthiness). -/
def wordSquareConstraint (lm : Nat → Val → List (List Val)) (cvars : List Name) : Constr :=
  ⟨cvars, fun st n v => !(wordSquareIsSatisfiable lm cvars st n v).isEmpty⟩

/-- `AllDifferentConstraint.is_satisfiable` as a store transformer (it
never writes the store). -/
def allDifferentM (cvars : List Name) (st : CState) (n : Name) (v : Val) : Bool × CState :=
  (allDifferentIsSatisfiable cvars st n v, st)

/-- `WordSquareConstraint.is_satisfiable` as a store transformer (it never
writes the store); the Bool is the Python truthiness of the word list. -/
def wordSquareM (lm : Nat → Val → List (List Val)) (cvars : List Name) (st : CState)
    (n : Name) (v : Val) : Bool × CState :=
  (!(wordSquareIsSatisfiable lm cvars st n v).isEmpty, st)

/-!  Concrete problems used as failing inputs and counterexamples. -/

/-- Three variables, pairwise `AllDifferentConstraint`s, two candidate
values each: an unsatisfiable problem built solely from framework parts. -/
def triangleProblem : Problem :=
  ⟨[0, 1, 2], fun _ => false,
   [allDiffConstraint [0, 1], allDiffConstraint [1, 2], allDiffConstraint [0, 2]], false⟩

/-- All three variables unassigned with domain `[1, 2]`. -/
def triangleInit : CState := fun _ => ⟨none, [1, 2], []⟩

/-- The binary not-equal constraint of the repository's own test fixture
(`test.py`, `NotEqualConstraint`): satisfiable iff the opposite variable's
domain holds some different value. -/
def notEqualConstraint (a b : Name) : Constr :=
  ⟨[a, b], fun st n v => ((if n = a then st b else st a).domain).any (fun w => w ≠ v)⟩

/-- A triangle of `NotEqualConstraint`s with only two colors. -/
def neTriangle : Problem :=
  ⟨[0, 1, 2], fun _ => false,
   [notEqualConstraint 0 1, notEqualConstraint 1 2, notEqualConstraint 0 2], false⟩

/-- All three variables unassigned with domain `[1, 2]`. -/
def neInit : CState := fun _ => ⟨none, [1, 2], []⟩

/-- The store after `_assign_value_to_variable(X, 1)` on `neInit`. -/
def neSt1 : CState := setVar neInit 0 ⟨some 1, [1], []⟩

/-- A binary table constraint: `is_satisfiable` holds when the relation
links the value to some value in the opposite variable's current domain. -/
def relSat (r : List (Val × Val)) (a b : Name) : CState → Name → Val → Bool :=
  fun st n v =>
    if n = a then ((st b).domain).any (fun w => r.contains (v, w))
    else ((st a).domain).any (fun w => r.contains (w, v))

/-- Two variables covered by two shared table constraints — the situation
the `is_disjoint_constraints` flag's precondition rules out. -/
def twoConsP (d : Bool) : Problem :=
  ⟨[0, 1], fun _ => false,
   [⟨[0, 1], relSat [(1, 1), (2, 2), (2, 3)] 0 1⟩,
    ⟨[0, 1], relSat [(1, 2), (2, 3)] 0 1⟩], d⟩

/-- Initial store for `twoConsP`: domains `[1, 2]` and `[1, 2, 3]`. -/
def twoConsInit : CState := fun n => if n = 0 then ⟨none, [1, 2], []⟩ else ⟨none, [1, 2, 3], []⟩

/-- Running `_ac3` on `twoConsP false`, then running it again on the
resulting store, and projecting out the second run's removed-value map. -/
def secondRunRemoved : Option RMap :=
  match ac3 (twoConsP false) 64 twoConsInit none with
  | some (_, st1) => (ac3 (twoConsP false) 64 st1 none).map (fun r => r.1)
  | none => none

/-- A one-constraint problem satisfying the disjoint-constraints
precondition. -/
def oneConsP : Problem :=
  ⟨[0, 1], fun _ => false, [⟨[0, 1], relSat [(1, 1)] 0 1⟩], false⟩

/-- Initial store for `oneConsP`. -/
def oneConsInit : CState := fun _ => ⟨none, [1], []⟩

/-- Two variables under one built-in `AllDifferentConstraint`; the first
`_ac3` run prunes value 5 from variable 1's domain. -/
def adP : Problem := ⟨[0, 1], fun _ => false, [allDiffConstraint [0, 1]], false⟩

/-- Initial store for `adP`: domains `[5]` and `[5, 6]`. -/
def adInit : CState := fun n => if n = 0 then ⟨none, [5], []⟩ else ⟨none, [5, 6], []⟩

/-- Store for the all-different failing input: the queried variable 10 and
variable 11 have domain `[1, 2]`, variable 12 has domain `[2]`. -/
def c4State : CState := fun n =>
  if n = 10 then ⟨none, [1, 2], []⟩
  else if n = 11 then ⟨none, [1, 2], []⟩
  else if n = 12 then ⟨none, [2], []⟩
  else ⟨none, [], []⟩

/-- Selection counterexample problem: variable 0 neighbors the two
variables 2 and 3, variable 1 neighbors variable 4. -/
def selP : Problem :=
  ⟨[0, 1, 2, 3, 4], fun _ => false,
   [⟨[0, 2], fun _ _ _ => true⟩, ⟨[0, 3], fun _ _ _ => true⟩,
    ⟨[1, 4], fun _ _ _ => true⟩], false⟩

/-- Selection counterexample store: variables 0 and 1 unassigned with
two-element domains, 2 and 3 assigned the falsy value 0, 4 unassigned with
a three-element domain. -/
def selSt : CState := fun n =>
  if n = 0 then ⟨none, [1, 2], []⟩
  else if n = 1 then ⟨none, [3, 4], []⟩
  else if n = 2 then ⟨some 0, [0], []⟩
  else if n = 3 then ⟨some 0, [0], []⟩
  else ⟨none, [5, 6, 7], []⟩

/-!  Vocabulary for the propagation theorems. -/

/-- Every variable mentioned by some constraint, once each. -/
def touchedVars (p : Problem) : List Name :=
  (p.cons.flatMap (fun c => c.cvars)).dedup

/-- The sum of the domain sizes of all constrained variables: the part of
the store `_ac3` can shrink. -/
def totalDom (p : Problem) (st : CState) : Nat :=
  ((touchedVars p).map (fun n => (st n).domain.length)).sum

/-- A bound on how many arcs one removal step can append to the queue. -/
def arcBound (p : Problem) : Nat :=
  ((touchedVars p).map (fun n => (neighborArcs p n).length)).sum

/-- An arc is well formed when its constraint index is in range and its
variable is covered by that constraint. Seeded and re-enqueued arcs are. -/
def arcWF (p : Problem) (a : Name × Nat) : Prop :=
  a.2 < p.cons.length ∧ a.1 ∈ (conAt p a.2).cvars

/-- Arc consistency of one arc in a store: every remaining domain value of
the arc's variable passes the constraint's `is_satisfiable`. -/
def arcOK (p : Problem) (st : CState) (a : Name × Nat) : Prop :=
  ∀ v ∈ (st a.1).domain, (conAt p a.2).sat st a.1 v = true

/-- A constraint's satisfiability test is value-local when it depends only
on the queried variable's committed value and the full states of the
constraint's other covered variables. All built-in constraint kinds are
value-local (proved below): the all-different test reads the queried
variable's `value` plus the other covered variables' values and domains,
the word-square test reads the other covered variables' domains, and the
sum test replaces the queried variable's own domain before reading it.
`_ac3` never changes a committed value, so the queried variable's value is
fixed throughout a propagation run; value-locality is the dependency
discipline its re-enqueue step relies on. -/
def valueLocal (c : Constr) : Prop :=
  ∀ st st' : CState, ∀ n v,
    (∀ m ∈ c.cvars, m ≠ n → st m = st' m) →
    (st n).value = (st' n).value →
    c.sat st n v = c.sat st' n v

/-- Every constraint of the problem is value-local. -/
def localSat (p : Problem) : Prop :=
  ∀ i, i < p.cons.length → valueLocal (conAt p i)

/-- The `is_disjoint_constraints` precondition: any two distinct variables
share at most one constraint. -/
def disjointShared (p : Problem) : Prop :=
  ∀ n m : Name, n ≠ m → (find_constraints_between p n m).length ≤ 1

/-!  Helper lemmas. -/

theorem setVar_same (st : CState) (n : Name) (v : VarState) : setVar st n v n = v := by
  simp [setVar]

theorem setVar_other (st : CState) (n : Name) (v : VarState) (m : Name) (h : m ≠ n) :
    setVar st n v m = st m := by
  simp [setVar, h]

theorem setVar_self (st : CState) (n : Name) : setVar st n (st n) = st := by
  funext m
  by_cases h : m = n
  · subst h; simp [setVar]
  · simp [setVar, h]

/-!  Claim theorems: the assignment primitive. -/

/-- Claim C6 (confirmed): `_assign_value_to_variable` raises exactly when
the value is outside the variable's current domain; otherwise it commits
the value, collapses the domain to the singleton, and changes nothing
else (the `setVar` form leaves every other variable's state and the
variable's own conflict set untouched). -/
theorem C6_assign_contract (st : CState) (n : Name) (v : Val) :
    (assign_value_to_variable st n v = .error .valueErr ↔ v ∉ (st n).domain) ∧
    (v ∈ (st n).domain →
      assign_value_to_variable st n v =
        .ok (setVar st n ⟨some v, [v], (st n).conflictSet⟩)) := by
  by_cases hv : v ∈ (st n).domain
  · refine ⟨?_, fun _ => ?_⟩ <;> simp [assign_value_to_variable, hv]
  · refine ⟨?_, fun h => absurd h hv⟩
    simp [assign_value_to_variable, hv]

/-- Witness for C6 at a concrete store. -/
theorem C6_assign_contract_witness :
    (1 : Val) ∈ (neInit 0).domain ∧
    assign_value_to_variable neInit 0 1 =
      .ok (setVar neInit 0 ⟨some 1, [1], (neInit 0).conflictSet⟩) :=
  ⟨by decide, (C6_assign_contract neInit 0 1).2 (by decide)⟩

/-- Claim C1 (code bug): the spec requires the values removed from the
current variable's own domain by the collapsing assignment to be recorded
for undo; the code computes that record from the already collapsed domain,
so the record is always `[(n, [])]` although every other old domain value
really was removed. On the failure path those values are therefore never
restored. -/
theorem C1_collapse_record_empty (st : CState) (n : Name) (v : Val)
    (hv : v ∈ (st n).domain) :
    ∃ st1, assign_value_to_variable st n v = .ok st1 ∧
      collapseRecord st1 n v = [(n, [])] ∧
      (∀ x ∈ (st n).domain, x ≠ v → x ∉ (st1 n).domain) := by
  refine ⟨_, (C6_assign_contract st n v).2 hv, ?_, ?_⟩
  · simp [collapseRecord, setVar_same]
  · intro x _ hx
    simp [setVar_same, hx]

/-- Witness for C1: with domain `[1, 2]`, assigning 1 removes 2 but the
undo record for the variable is empty. -/
theorem C1_collapse_record_empty_witness :
    ∃ st1, assign_value_to_variable neInit 0 1 = .ok st1 ∧
      collapseRecord st1 0 1 = [(0, [])] ∧
      (∀ x ∈ (neInit 0).domain, x ≠ 1 → x ∉ (st1 0).domain) :=
  C1_collapse_record_empty neInit 0 1 (by decide)

/-- Claim C2 (code bug): on the unsatisfiable pairwise all-different
triangle, `solve` aborts with the uncaught `ValueError` from
`_assign_value_to_variable` (the un-restored domain of the first chosen
variable no longer contains its second candidate value) instead of
reporting the no-solution outcome. -/
theorem C2_solve_uncaught_value_error :
    solve triangleProblem 64 8 triangleInit = .error .valueErr := by rfl

/-- Claim C4 (code bug): on the failing input the all-different check
returns true, although the claimed algorithm (committing the sole element
of the singleton temporary domain, here 2) would empty variable 12's
temporary domain and return false; the code commits
`list(singletons[0].domain)[0] = 1` from the real domain instead. The
extra conjuncts exhibit the divergence: variable 11's temporary domain is
the singleton `[2]`, whose sole element (2) differs from the head of its
real domain (1) that the code commits. -/
theorem C4_alldiff_singleton_commit_bug :
    allDifferentIsSatisfiable [10, 11, 12] c4State 10 1 = true ∧
    ((c4State 11).domain.erase 1 = [2] ∧ ((c4State 11).domain.headD 0) = 1) := by
  exact ⟨rfl, rfl, rfl⟩

/-- Claim C5 (code bug): in `solve` on the two-color `NotEqualConstraint`
triangle, after the first assignment (variable 0 := 1) the scoped AC-3 call
removes the assigned variable's own value from its domain — the final store
has `value = some 1` but `domain = []`, and the removed-value report
charges value 1 to variable 0. The first two conjuncts show this state is
reached inside `solve`: the initial whole-problem AC-3 pass removes
nothing and leaves every store field as in `neInit`, and the selection then
picks variable 0, whose first candidate is 1. -/
theorem C5_propagation_empties_assigned_domain :
    (ac3 neTriangle 64 neInit none).map
      (fun r => (r.1, (r.2 0), (r.2 1), (r.2 2))) =
      some ([], neInit 0, neInit 1, neInit 2) ∧
    select_unassigned_variable neTriangle neInit = some 0 ∧
    assign_value_to_variable neInit 0 1 = .ok neSt1 ∧
    (ac3 neTriangle 64 neSt1 (some 0)).map
      (fun r => (r.1.lookup 0, (r.2 0).value, (r.2 0).domain)) =
      some (some [1], some 1, []) := ⟨rfl, rfl, rfl, rfl⟩

/-- Claim C3 counterexample: on a problem where the two variables share two
constraints, the two settings of `is_disjoint_constraints` produce
different removed-value maps and different final domains, refuting the
for-every-problem equivalence. -/
theorem C3_counterexample :
    (ac3 (twoConsP true) 64 twoConsInit none).map
      (fun r => (r.1, (r.2 0).domain, (r.2 1).domain)) ≠
    (ac3 (twoConsP false) 64 twoConsInit none).map
      (fun r => (r.1, (r.2 0).domain, (r.2 1).domain)) := by decide

/-- Claim C8 counterexample: with `is_disjoint_constraints = False` and two
shared constraints, the first `_ac3` run misses a re-enqueue, and an
immediate second run still removes a value (value 2 of variable 1),
refuting idempotence as stated. -/
theorem C8_counterexample :
    secondRunRemoved = some [(1, [2])] ∧ secondRunRemoved ≠ some [] :=
  ⟨rfl, by decide⟩

/-!  Claim C3: the two lookup strategies agree under the flag's
precondition, so both flag settings propagate identically. -/

theorem find?_eq_head?_filter {α : Type} (pr : α → Bool) (l : List α) :
    l.find? pr = (l.filter pr).head? := by
  induction l with
  | nil => rfl
  | cons a l ih =>
    by_cases h : pr a
    · simp [List.find?_cons, h]
    · simp only [List.find?_cons, List.filter_cons]
      rw [if_neg (by simp [h]), ih]
      simp [h]

theorem find_between_eq_of_disjoint (p : Problem) (hd : disjointShared p)
    {n m : Name} (hnm : n ≠ m) :
    find_constraint_between p n m = find_constraints_between p n m := by
  have hlen := hd n m hnm
  rw [find_constraint_between, find?_eq_head?_filter]
  rcases hfl : (varCons p n).filter (fun i => covers (conAt p i) m) with _ | ⟨x, rest⟩
  · simp [find_constraints_between, hfl]
  · have : rest = [] := by
      have := hd n m hnm
      rw [find_constraints_between, hfl] at this
      simpa using this
    subst this
    simp [find_constraints_between, hfl]

theorem mem_neighbors_ne (p : Problem) (n m : Name) (h : m ∈ neighbors p n) : m ≠ n := by
  rw [neighbors] at h
  have := List.mem_dedup.mp h
  exact of_decide_eq_true (List.mem_filter.mp this).2

theorem neighborArcs_flag_eq (p : Problem) (hd : disjointShared p) (n : Name) :
    neighborArcs { p with disjoint := true } n = neighborArcs { p with disjoint := false } n := by
  rw [neighborArcs, neighborArcs]
  apply List.flatMap_congr
  intro nb hnb
  have hne : n ≠ nb := by
    have : nb ≠ n := mem_neighbors_ne p n nb hnb
    exact fun hh => this hh.symm
  show (findCs { p with disjoint := true } n nb).map _ =
    (findCs { p with disjoint := false } n nb).map _
  rw [show findCs { p with disjoint := true } = find_constraints_between p from rfl,
    show findCs { p with disjoint := false } = find_constraint_between p from rfl,
    find_between_eq_of_disjoint p hd hne]

theorem ac3Loop_flag_eq (p : Problem) (hd : disjointShared p) :
    ∀ (fuel : Nat) (q : List (Name × Nat)) (st : CState) (rm : RMap),
    ac3Loop { p with disjoint := true } fuel q st rm =
      ac3Loop { p with disjoint := false } fuel q st rm := by
  intro fuel
  induction fuel with
  | zero => intro q st rm; rfl
  | succ fuel ih =>
    intro q st rm
    match q with
    | [] => rfl
    | (n, ci) :: rest =>
      show ite _ _ _ = ite _ _ _
      have et : remove_inconsistent_values { p with disjoint := true } =
          remove_inconsistent_values p := rfl
      have ef : remove_inconsistent_values { p with disjoint := false } =
          remove_inconsistent_values p := rfl
      rw [et, ef]
      by_cases h : (remove_inconsistent_values p st n ci).1.isEmpty
      · rw [if_pos h, if_pos h]
        exact ih _ _ _
      · rw [if_neg h, if_neg h, neighborArcs_flag_eq p hd n]
        exact ih _ _ _

/-- Claim C3 (amended): the flag's sense is reversed from the claim — with
`is_disjoint_constraints = True` the code scans all shared constraints
(`find_constraints_between`) and with `False` it takes the first shared
constraint (`find_constraint_between`); still, for every problem meeting
the flag's stated precondition (any two distinct variables share at most
one constraint), both flag settings produce identical propagation results:
the same removed-value mapping and the same final store. -/
theorem C3_flag_equivalence (p : Problem) (hd : disjointShared p)
    (fuel : Nat) (st : CState) (scope : Option Name) :
    findCs { p with disjoint := true } = find_constraints_between p ∧
    findCs { p with disjoint := false } = find_constraint_between p ∧
    ac3 { p with disjoint := true } fuel st scope =
      ac3 { p with disjoint := false } fuel st scope :=
  ⟨rfl, rfl, ac3Loop_flag_eq p hd fuel _ st []⟩

/-- Witness for C3 on the one-constraint problem. -/
theorem C3_flag_equivalence_witness :
    disjointShared oneConsP ∧
    (findCs { oneConsP with disjoint := true } = find_constraints_between oneConsP ∧
     findCs { oneConsP with disjoint := false } = find_constraint_between oneConsP ∧
     ac3 { oneConsP with disjoint := true } 8 oneConsInit none =
       ac3 { oneConsP with disjoint := false } 8 oneConsInit none) := by
  have hd : disjointShared oneConsP := by
    intro n m _
    have h1 : (find_constraints_between oneConsP n m).length ≤ (varCons oneConsP n).length :=
      List.length_filter_le _ _
    have h2 : (varCons oneConsP n).length ≤ 1 := by
      have := List.length_filter_le (fun i => covers (conAt oneConsP i) n)
        (List.range oneConsP.cons.length)
      simpa using this
    omega
  exact ⟨hd, C3_flag_equivalence oneConsP hd 8 oneConsInit none⟩

/-!  Claim C10: termination of the AC-3 work loop. -/

theorem rIV_fst (p : Problem) (st : CState) (n : Name) (ci : Nat) :
    (remove_inconsistent_values p st n ci).1 =
      (st n).domain.filter (fun v => !((conAt p ci).sat st n v)) := rfl

theorem rIV_snd (p : Problem) (st : CState) (n : Name) (ci : Nat) :
    (remove_inconsistent_values p st n ci).2 =
      setVar st n
        { value := (st n).value,
          domain := (st n).domain.filter
            (fun x => !((remove_inconsistent_values p st n ci).1.contains x)),
          conflictSet := (st n).conflictSet } :=
  rfl

theorem rIV_other (p : Problem) (st : CState) (n : Name) (ci : Nat) (m : Name) (h : m ≠ n) :
    (remove_inconsistent_values p st n ci).2 m = st m := by
  rw [rIV_snd]; exact setVar_other _ _ _ _ h

theorem rIV_value (p : Problem) (st : CState) (n : Name) (ci : Nat) :
    ((remove_inconsistent_values p st n ci).2 n).value = (st n).value := by
  rw [rIV_snd, setVar_same]

theorem rIV_empty_state (p : Problem) (st : CState) (n : Name) (ci : Nat)
    (h : (remove_inconsistent_values p st n ci).1.isEmpty) :
    (remove_inconsistent_values p st n ci).2 = st := by
  have hnil : (remove_inconsistent_values p st n ci).1 = [] := by simpa using h
  rw [rIV_snd, hnil]
  simpa using setVar_self st n

theorem rIV_shrink (p : Problem) (st : CState) (n : Name) (ci : Nat)
    (h : ¬ (remove_inconsistent_values p st n ci).1.isEmpty) :
    ((remove_inconsistent_values p st n ci).2 n).domain.length < (st n).domain.length := by
  have hne : (remove_inconsistent_values p st n ci).1 ≠ [] := by
    intro hh; exact h (by simp [hh])
  obtain ⟨x, hx⟩ := List.exists_mem_of_ne_nil _ hne
  have hxd : x ∈ (st n).domain := by
    rw [rIV_fst] at hx
    exact (List.mem_filter.mp hx).1
  rw [rIV_snd, setVar_same]
  apply List.length_filter_lt_length_iff_exists.mpr
  refine ⟨x, hxd, ?_⟩
  simp only [Bool.not_eq_true, Bool.not_eq_false]
  simp
  exact hx

theorem enqueueNew_cons (q : List (Name × Nat)) (a : Name × Nat) (l : List (Name × Nat)) :
    enqueueNew q (a :: l) = enqueueNew (if q.contains a then q else q ++ [a]) l := rfl

theorem enqueueNew_length_le (l : List (Name × Nat)) :
    ∀ q : List (Name × Nat), (enqueueNew q l).length ≤ q.length + l.length := by
  induction l with
  | nil => intro q; simp [enqueueNew]
  | cons a l ih =>
    intro q
    rw [enqueueNew_cons]
    by_cases h : q.contains a
    · rw [if_pos h]
      have := ih q
      simp only [List.length_cons]
      omega
    · rw [if_neg h]
      have := ih (q ++ [a])
      simp only [List.length_append, List.length_cons, List.length_nil] at this
      simp only [List.length_cons]
      omega

theorem mem_of_mem_enqueueNew (l : List (Name × Nat)) :
    ∀ q a, a ∈ enqueueNew q l → a ∈ q ∨ a ∈ l := by
  induction l with
  | nil => intro q a h; exact Or.inl h
  | cons b l ih =>
    intro q a h
    rw [enqueueNew_cons] at h
    rcases ih _ a h with hh | hh
    · by_cases hb : q.contains b
      · rw [if_pos hb] at hh; exact Or.inl hh
      · rw [if_neg hb] at hh
        rcases List.mem_append.mp hh with h1 | h1
        · exact Or.inl h1
        · simp at h1; subst h1; exact Or.inr (by simp)
    · exact Or.inr (by simp [hh])

theorem varCons_spec (p : Problem) (n : Name) (i : Nat) (h : i ∈ varCons p n) :
    i < p.cons.length ∧ covers (conAt p i) n = true := by
  have := List.mem_filter.mp h
  exact ⟨List.mem_range.mp this.1, this.2⟩

theorem findCs_spec (p : Problem) (n m : Name) (i : Nat) (h : i ∈ findCs p n m) :
    i ∈ varCons p n ∧ covers (conAt p i) m = true := by
  rw [findCs] at h
  by_cases hd : p.disjoint
  · rw [if_pos hd] at h
    exact ⟨(List.mem_filter.mp h).1, (List.mem_filter.mp h).2⟩
  · rw [if_neg hd] at h
    rw [find_constraint_between] at h
    cases hf : (varCons p n).find? (fun i => covers (conAt p i) m) with
    | none => rw [hf] at h; simp at h
    | some j =>
      rw [hf] at h
      simp at h
      subst h
      refine ⟨List.mem_of_find?_eq_some hf, ?_⟩
      have := List.find?_some hf
      simpa using this

theorem neighborArcs_wf (p : Problem) (n : Name) (a : Name × Nat) (h : a ∈ neighborArcs p n) :
    arcWF p a := by
  rw [neighborArcs] at h
  obtain ⟨nb, _, ha⟩ := List.mem_flatMap.mp h
  obtain ⟨ci, hci, he⟩ := List.mem_map.mp ha
  obtain ⟨hv, hc⟩ := findCs_spec p n nb ci hci
  have hlt := varCons_spec p n ci hv
  subst he
  exact ⟨hlt.1, List.elem_iff.mp hc⟩

theorem seed_wf (p : Problem) (st : CState) (scope : Option Name) (a : Name × Nat)
    (h : a ∈ ac3Seed p st scope) : arcWF p a := by
  cases scope with
  | none =>
    rw [ac3Seed] at h
    obtain ⟨ci, hci, ha⟩ := List.mem_flatMap.mp h
    obtain ⟨v, hv, he⟩ := List.mem_map.mp ha
    subst he
    exact ⟨List.mem_range.mp hci, (List.mem_filter.mp hv).1⟩
  | some n =>
    rw [ac3Seed] at h
    obtain ⟨ci, hci, ha⟩ := List.mem_flatMap.mp h
    obtain ⟨v, hv, he⟩ := List.mem_map.mp ha
    subst he
    exact ⟨(varCons_spec p n ci hci).1, (List.mem_filter.mp hv).1⟩

theorem sum_map_update_lt (st st' : CState) (n : Name) :
    ∀ l : List Name, l.Nodup → n ∈ l → (∀ m, m ≠ n → st' m = st m) →
    (st' n).domain.length < (st n).domain.length →
    ((l.map (fun m => (st' m).domain.length)).sum <
      (l.map (fun m => (st m).domain.length)).sum) := by
  intro l
  induction l with
  | nil => intro _ hn; simp at hn
  | cons a l ih =>
    intro hl hn hoth hlt
    rcases List.mem_cons.mp hn with h | h
    · subst h
      have heq : l.map (fun m => (st' m).domain.length) =
          l.map (fun m => (st m).domain.length) := by
        apply List.map_congr_left
        intro m hm
        have hmn : m ≠ n := fun he => (List.nodup_cons.mp hl).1 (he ▸ hm)
        rw [hoth m hmn]
      simp only [List.map_cons, List.sum_cons, heq]
      omega
    · have han : a ≠ n := fun he => (List.nodup_cons.mp hl).1 (he ▸ h)
      have := ih (List.nodup_cons.mp hl).2 h hoth hlt
      simp only [List.map_cons, List.sum_cons, hoth a han]
      omega

theorem mem_touchedVars (p : Problem) (n : Name) (ci : Nat) (hwf : arcWF p (n, ci)) :
    n ∈ touchedVars p := by
  rw [touchedVars, List.mem_dedup]
  apply List.mem_flatMap.mpr
  refine ⟨conAt p ci, ?_, hwf.2⟩
  rw [conAt, List.getD_eq_getElem p.cons default hwf.1]
  exact List.getElem_mem hwf.1

theorem totalDom_rIV_lt (p : Problem) (st : CState) (n : Name) (ci : Nat)
    (hwf : arcWF p (n, ci)) (h : ¬ (remove_inconsistent_values p st n ci).1.isEmpty) :
    totalDom p (remove_inconsistent_values p st n ci).2 < totalDom p st :=
  sum_map_update_lt st (remove_inconsistent_values p st n ci).2 n (touchedVars p)
    (List.nodup_dedup _) (mem_touchedVars p n ci hwf)
    (fun m hm => rIV_other p st n ci m hm) (rIV_shrink p st n ci h)

theorem neighborArcs_le_arcBound (p : Problem) (n : Name) (hn : n ∈ touchedVars p) :
    (neighborArcs p n).length ≤ arcBound p :=
  List.le_sum_of_mem (List.mem_map_of_mem _ hn)

theorem ac3Loop_term (p : Problem) :
    ∀ (k : Nat) (q : List (Name × Nat)) (st : CState) (rm : RMap),
    (∀ a ∈ q, arcWF p a) →
    totalDom p st * (arcBound p + 1) + q.length ≤ k →
    ∃ out, ac3Loop p (k + 1) q st rm = some out := by
  intro k
  induction k with
  | zero =>
    intro q st rm _ hk
    match q with
    | [] => exact ⟨(rm, st), rfl⟩
    | a :: q' => simp at hk
  | succ k ih =>
    intro q st rm hwf hk
    match q with
    | [] => exact ⟨(rm, st), rfl⟩
    | (n, ci) :: rest =>
      show ∃ out, ite _ _ _ = some out
      by_cases h : (remove_inconsistent_values p st n ci).1.isEmpty
      · rw [if_pos h, rIV_empty_state p st n ci h]
        apply ih rest st rm (fun a ha => hwf a (by simp [ha]))
        simp at hk
        omega
      · rw [if_neg h]
        have hwfh : arcWF p (n, ci) := hwf (n, ci) (by simp)
        apply ih
        · intro a ha
          rcases mem_of_mem_enqueueNew _ _ a ha with hh | hh
          · exact hwf a (by simp [hh])
          · exact neighborArcs_wf p n a hh
        · have hD : totalDom p (remove_inconsistent_values p st n ci).2 + 1 ≤ totalDom p st :=
            totalDom_rIV_lt p st n ci hwfh h
          have hq : (enqueueNew rest (neighborArcs p n)).length ≤
              rest.length + (neighborArcs p n).length := enqueueNew_length_le _ _
          have hnb : (neighborArcs p n).length ≤ arcBound p :=
            neighborArcs_le_arcBound p n (mem_touchedVars p n ci hwfh)
          have hmul : (totalDom p (remove_inconsistent_values p st n ci).2 + 1) *
              (arcBound p + 1) ≤ totalDom p st * (arcBound p + 1) :=
            Nat.mul_le_mul_right _ hD
          have hexp : (totalDom p (remove_inconsistent_values p st n ci).2 + 1) *
              (arcBound p + 1) =
              totalDom p (remove_inconsistent_values p st n ci).2 * (arcBound p + 1) +
                arcBound p + 1 := by ring
          rw [hexp] at hmul
          simp only [List.length_cons] at hk
          omega

/-- Claim C10 (confirmed): for every problem and store, the `_ac3` work
loop terminates — its fixpoint iteration cannot run forever, because every
iteration either strictly shrinks a constrained variable's total domain
mass (enqueueing at most `arcBound` new arcs) or strictly shortens the
queue. Concretely, a fuel of `totalDom * (arcBound + 1) + |seed| + 1`
always suffices for `ac3` to return a result. -/
theorem C10_ac3_terminates (p : Problem) (st : CState) (scope : Option Name) :
    ∃ fuel out, ac3 p fuel st scope = some out := by
  refine ⟨totalDom p st * (arcBound p + 1) + (ac3Seed p st scope).length + 1, ?_⟩
  exact ac3Loop_term p _ (ac3Seed p st scope) st []
    (fun a ha => seed_wf p st scope a ha) (le_refl _)

/-!  Claim C8: idempotence of `_ac3` under its precondition. -/

theorem ac3Loop_cons (p : Problem) (f : Nat) (n : Name) (ci : Nat)
    (rest : List (Name × Nat)) (st : CState) (rm : RMap) :
    ac3Loop p (f + 1) ((n, ci) :: rest) st rm =
      if (remove_inconsistent_values p st n ci).1.isEmpty then
        ac3Loop p f rest (remove_inconsistent_values p st n ci).2 rm
      else
        ac3Loop p f (enqueueNew rest (neighborArcs p n))
          (remove_inconsistent_values p st n ci).2
          (rmapAdd rm n (remove_inconsistent_values p st n ci).1) := rfl

theorem mem_enqueueNew_left (l : List (Name × Nat)) :
    ∀ q a, a ∈ q → a ∈ enqueueNew q l := by
  induction l with
  | nil => intro q a h; exact h
  | cons b l ih =>
    intro q a h
    rw [enqueueNew_cons]
    by_cases hb : q.contains b
    · rw [if_pos hb]; exact ih q a h
    · rw [if_neg hb]; exact ih _ a (by simp [h])

theorem mem_enqueueNew_right (l : List (Name × Nat)) :
    ∀ q a, a ∈ l → a ∈ enqueueNew q l := by
  induction l with
  | nil => intro q a h; simp at h
  | cons b l ih =>
    intro q a h
    rw [enqueueNew_cons]
    rcases List.mem_cons.mp h with h1 | h1
    · subst h1
      by_cases hb : q.contains a
      · rw [if_pos hb]
        exact mem_enqueueNew_left l q a (List.elem_iff.mp hb)
      · rw [if_neg hb]
        exact mem_enqueueNew_left l _ a (by simp)
    · by_cases hb : q.contains b
      · rw [if_pos hb]; exact ih q a h1
      · rw [if_neg hb]; exact ih _ a h1

theorem ac3Loop_values (p : Problem) :
    ∀ (f : Nat) (q : List (Name × Nat)) (st : CState) (rm rm' : RMap) (st' : CState),
    ac3Loop p f q st rm = some (rm', st') → ∀ m, (st' m).value = (st m).value := by
  intro f
  induction f with
  | zero =>
    intro q st rm rm' st' h
    exact absurd h (by simp [ac3Loop])
  | succ f ih =>
    intro q st rm rm' st' h m
    match q with
    | [] =>
      have heq2 : some (rm, st) = some (rm', st') := h
      simp only [Option.some.injEq, Prod.mk.injEq] at heq2
      rw [← heq2.2]
    | (n, ci) :: rest =>
      rw [ac3Loop_cons] at h
      have step : ∀ mm, ((remove_inconsistent_values p st n ci).2 mm).value = (st mm).value := by
        intro mm
        by_cases hm : mm = n
        · subst hm; exact rIV_value p st mm ci
        · rw [rIV_other p st n ci mm hm]
      by_cases hemp : (remove_inconsistent_values p st n ci).1.isEmpty
      · rw [if_pos hemp] at h
        rw [ih _ _ _ _ _ h m, step m]
      · rw [if_neg hemp] at h
        rw [ih _ _ _ _ _ h m, step m]

theorem arcOK_of_inc_empty (p : Problem) (st : CState) (w : Name) (c0 : Nat)
    (h : (remove_inconsistent_values p st w c0).1.isEmpty) : arcOK p st (w, c0) := by
  intro x hx
  have hnil : (st w).domain.filter (fun v => !((conAt p c0).sat st w v)) = [] := by
    have h' := h
    rw [rIV_fst] at h'
    simpa using h'
  by_contra hns
  have hmem : x ∈ (st w).domain.filter (fun v => !((conAt p c0).sat st w v)) :=
    List.mem_filter.mpr ⟨hx, by rw [Bool.not_eq_true] at hns; simp [hns]⟩
  rw [hnil] at hmem
  simp at hmem

theorem arcOK_mono (p : Problem) (hloc : localSat p) (st st' : CState)
    (v : Name) (ci : Nat) (hci : ci < p.cons.length)
    (hOK : arcOK p st (v, ci)) (w : Name)
    (hoth : ∀ m, m ≠ w → st' m = st m)
    (hval : (st' v).value = (st v).value)
    (hsub : (st' v).domain ⊆ (st v).domain)
    (hw : w ∈ (conAt p ci).cvars → w = v) :
    arcOK p st' (v, ci) := by
  intro x hx
  have hxd : x ∈ (st v).domain := hsub hx
  have heq : (conAt p ci).sat st' v x = (conAt p ci).sat st v x := by
    apply hloc ci hci st' st v x ?_ hval
    intro m hm hmv
    by_cases hmw : m = w
    · subst hmw; exact absurd (hw hm) hmv
    · exact hoth m hmw
  rw [heq]
  exact hOK x hxd

theorem arcOK_after_process (p : Problem) (hloc : localSat p) (st : CState)
    (w : Name) (c0 : Nat) (hci : c0 < p.cons.length) :
    arcOK p (remove_inconsistent_values p st w c0).2 (w, c0) := by
  intro x hx
  rw [rIV_snd, setVar_same] at hx
  have hmem := List.mem_filter.mp hx
  have hxd : x ∈ (st w).domain := hmem.1
  have hninc : x ∉ (remove_inconsistent_values p st w c0).1 := by
    intro hin
    have h2 := hmem.2
    simp at h2
    exact h2 hin
  have hsat : (conAt p c0).sat st w x = true := by
    by_contra hns
    apply hninc
    rw [rIV_fst]
    exact List.mem_filter.mpr ⟨hxd, by rw [Bool.not_eq_true] at hns; simp [hns]⟩
  have heq : (conAt p c0).sat (remove_inconsistent_values p st w c0).2 w x =
      (conAt p c0).sat st w x := by
    apply hloc c0 hci _ _ w x ?_ (rIV_value p st w c0)
    intro m _ hmw
    exact rIV_other p st w c0 m hmw
  rw [heq]
  exact hsat

theorem mem_neighbors_of_shares (p : Problem) (w v : Name) (ci : Nat)
    (hci : ci < p.cons.length) (hw : w ∈ (conAt p ci).cvars) (hv : v ∈ (conAt p ci).cvars)
    (hne : v ≠ w) : v ∈ neighbors p w := by
  rw [neighbors, List.mem_dedup]
  apply List.mem_filter.mpr
  refine ⟨?_, by simp [hne]⟩
  apply List.mem_flatMap.mpr
  refine ⟨ci, ?_, hv⟩
  rw [varCons]
  apply List.mem_filter.mpr
  refine ⟨List.mem_range.mpr hci, ?_⟩
  simp only [covers]
  exact List.elem_iff.mpr hw

theorem mem_findCs_of_shares (p : Problem) (hd : disjointShared p) (w v : Name) (ci : Nat)
    (hci : ci < p.cons.length) (hw : w ∈ (conAt p ci).cvars) (hv : v ∈ (conAt p ci).cvars)
    (hne : w ≠ v) : ci ∈ findCs p w v := by
  have hmem : ci ∈ find_constraints_between p w v := by
    rw [find_constraints_between]
    apply List.mem_filter.mpr
    constructor
    · rw [varCons]
      refine List.mem_filter.mpr ⟨List.mem_range.mpr hci, ?_⟩
      simp only [covers]
      exact List.elem_iff.mpr hw
    · simp only [covers]
      exact List.elem_iff.mpr hv
  rw [findCs]
  by_cases hdj : p.disjoint
  · rw [if_pos hdj]; exact hmem
  · rw [if_neg hdj, find_between_eq_of_disjoint p hd hne]; exact hmem

theorem mem_neighborArcs_of_shares (p : Problem) (hd : disjointShared p) (w v : Name) (ci : Nat)
    (hci : ci < p.cons.length) (hw : w ∈ (conAt p ci).cvars) (hv : v ∈ (conAt p ci).cvars)
    (hne : v ≠ w) : (v, ci) ∈ neighborArcs p w := by
  rw [neighborArcs]
  apply List.mem_flatMap.mpr
  refine ⟨v, mem_neighbors_of_shares p w v ci hci hw hv hne, ?_⟩
  apply List.mem_map.mpr
  exact ⟨ci, mem_findCs_of_shares p hd w v ci hci hw hv (fun h => hne h.symm), rfl⟩

theorem ac3Loop_invariant (p : Problem) (hd : disjointShared p) (hloc : localSat p) :
    ∀ (f : Nat) (q : List (Name × Nat)) (st : CState) (rm rm' : RMap) (st' : CState),
    ac3Loop p f q st rm = some (rm', st') →
    ∀ (U : List (Name × Nat)), (∀ a ∈ U, arcWF p a) →
    (∀ a ∈ U, arcOK p st a ∨ a ∈ q) →
    ∀ a ∈ U, arcOK p st' a := by
  intro f
  induction f with
  | zero =>
    intro q st rm rm' st' h
    exact absurd h (by simp [ac3Loop])
  | succ f ih =>
    intro q st rm rm' st' h U hUwf hU a ha
    match q with
    | [] =>
      have heq : some (rm, st) = some (rm', st') := h
      simp only [Option.some.injEq, Prod.mk.injEq] at heq
      rw [← heq.2]
      rcases hU a ha with hOK | hmem
      · exact hOK
      · simp at hmem
    | (w, c0) :: rest =>
      rw [ac3Loop_cons] at h
      have hwfh : arcWF p (w, c0) → c0 < p.cons.length := fun hh => hh.1
      by_cases hemp : (remove_inconsistent_values p st w c0).1.isEmpty
      · rw [if_pos hemp, rIV_empty_state p st w c0 hemp] at h
        apply ih rest st rm rm' st' h U hUwf ?_ a ha
        intro b hb
        rcases hU b hb with hOK | hmem
        · exact Or.inl hOK
        · rcases List.mem_cons.mp hmem with h1 | h1
          · rw [h1]; exact Or.inl (arcOK_of_inc_empty p st w c0 hemp)
          · exact Or.inr h1
      · rw [if_neg hemp] at h
        apply ih _ _ _ _ _ h U hUwf ?_ a ha
        intro b hb
        rcases hU b hb with hOK | hmem
        · obtain ⟨v, ci⟩ := b
          have hbwf := hUwf (v, ci) hb
          by_cases hvw : v = w
          · subst hvw
            left
            apply arcOK_mono p hloc st _ v ci hbwf.1 hOK v
              (fun m hm => rIV_other p st v c0 m hm) (rIV_value p st v c0) ?_ (fun _ => rfl)
            rw [rIV_snd, setVar_same]
            exact List.filter_subset' _
          · by_cases hwc : w ∈ (conAt p ci).cvars
            · right
              exact mem_enqueueNew_right _ _ _
                (mem_neighborArcs_of_shares p hd w v ci hbwf.1 hwc hbwf.2 hvw)
            · left
              apply arcOK_mono p hloc st _ v ci hbwf.1 hOK w
                (fun m hm => rIV_other p st w c0 m hm)
                (by rw [rIV_other p st w c0 v hvw]) ?_ (fun hin => absurd hin hwc)
              rw [rIV_other p st w c0 v hvw]
              exact fun x hx => hx
        · rcases List.mem_cons.mp hmem with h1 | h1
          · left
            rw [h1]
            have hc0 : c0 < p.cons.length := by
              have hbwf := hUwf b hb
              rw [h1] at hbwf
              exact hbwf.1
            exact arcOK_after_process p hloc st w c0 hc0
          · right
            exact mem_enqueueNew_left _ _ b h1

theorem ac3Loop_consistent_run (p : Problem) :
    ∀ (q : List (Name × Nat)) (f : Nat) (st : CState) (rm : RMap),
    q.length < f →
    (∀ a ∈ q, arcOK p st a) →
    ac3Loop p f q st rm = some (rm, st) := by
  intro q
  induction q with
  | nil =>
    intro f st rm hf _
    match f with
    | 0 => omega
    | f + 1 => rfl
  | cons a rest ih =>
    obtain ⟨n, ci⟩ := a
    intro f st rm hf h
    have harc : arcOK p st (n, ci) := h (n, ci) (by simp)
    have hemp : (remove_inconsistent_values p st n ci).1.isEmpty := by
      rw [rIV_fst]
      have hnil : (st n).domain.filter (fun v => !((conAt p ci).sat st n v)) = [] := by
        apply List.filter_eq_nil_iff.mpr
        intro x hx
        simp [harc x hx]
      simp [hnil]
    match f, hf with
    | f + 1, hf =>
      rw [ac3Loop_cons, if_pos hemp, rIV_empty_state p st n ci hemp]
      apply ih f st rm (by simp at hf; omega)
      exact fun b hb => h b (by simp [hb])

theorem ac3Seed_congr (p : Problem) (st st' : CState) (scope : Option Name)
    (h : ∀ m, (st' m).value = (st m).value) : ac3Seed p st' scope = ac3Seed p st scope := by
  rw [ac3Seed.eq_def, ac3Seed.eq_def]
  apply List.flatMap_congr
  intro ci _
  congr 1
  apply List.filter_congr
  intro v _
  rw [h v]

theorem allDiffLoop_succ (st : CState) (fuel : Nat) (tmp : List (Name × List Val)) :
    allDiffLoop st (fuel + 1) tmp =
      if tmp.all (fun e => !e.2.isEmpty) then
        match tmp.find? (fun e => e.2.length == 1) with
        | some s =>
          allDiffLoop st fuel
            ((tmp.map (fun e => (e.1, e.2.erase (((st s.1).domain).headD 0)))).eraseP
              (fun e => e.1 == s.1))
        | none => true
      else false := rfl

theorem allDiffLoop_succ_none (st : CState) (fuel : Nat) (tmp : List (Name × List Val))
    (hall : tmp.all (fun e => !e.2.isEmpty) = true)
    (hf : tmp.find? (fun e => e.2.length == 1) = none) :
    allDiffLoop st (fuel + 1) tmp = true := by
  rw [allDiffLoop_succ, if_pos hall, hf]

theorem allDiffLoop_succ_some (st : CState) (fuel : Nat) (tmp : List (Name × List Val))
    (s : Name × List Val) (hall : tmp.all (fun e => !e.2.isEmpty) = true)
    (hf : tmp.find? (fun e => e.2.length == 1) = some s) :
    allDiffLoop st (fuel + 1) tmp =
      allDiffLoop st fuel
        ((tmp.map (fun e => (e.1, e.2.erase (((st s.1).domain).headD 0)))).eraseP
          (fun e => e.1 == s.1)) := by
  rw [allDiffLoop_succ, if_pos hall, hf]

theorem allDiffLoop_succ_stuck (st : CState) (fuel : Nat) (tmp : List (Name × List Val))
    (hall : ¬ tmp.all (fun e => !e.2.isEmpty) = true) :
    allDiffLoop st (fuel + 1) tmp = false := by
  rw [allDiffLoop_succ, if_neg hall]

/-- `allDiffLoop` only reads the real domains of the variables keyed in its
temporary-domain list, so two stores agreeing there run it identically. -/
theorem allDiffLoop_congr (st st' : CState) :
    ∀ (fuel : Nat) (tmp : List (Name × List Val)),
    (∀ e ∈ tmp, st e.1 = st' e.1) →
    allDiffLoop st fuel tmp = allDiffLoop st' fuel tmp := by
  intro fuel
  induction fuel with
  | zero => intro tmp _; rfl
  | succ fuel ih =>
    intro tmp h
    by_cases hall : tmp.all (fun e => !e.2.isEmpty)
    · cases hf : tmp.find? (fun e => e.2.length == 1) with
      | none =>
        rw [allDiffLoop_succ_none st fuel tmp hall hf,
          allDiffLoop_succ_none st' fuel tmp hall hf]
      | some s =>
        have hs : s ∈ tmp := List.mem_of_find?_eq_some hf
        rw [allDiffLoop_succ_some st fuel tmp s hall hf,
          allDiffLoop_succ_some st' fuel tmp s hall hf, h s hs]
        apply ih
        intro e he
        obtain ⟨e0, he0, heq⟩ := List.mem_map.mp (List.mem_of_mem_eraseP he)
        have he1 : e.1 = e0.1 := by rw [← heq]
        rw [he1]
        exact h e0 he0
    · rw [allDiffLoop_succ_stuck st fuel tmp hall, allDiffLoop_succ_stuck st' fuel tmp hall]

theorem allDiffIsSat_eq (cvars : List Name) (st : CState) (n : Name) (v : Val) :
    allDifferentIsSatisfiable cvars st n v =
      if (st n).value.isSome then true
      else if (cvars.filterMap (fun m => (st m).value)).contains v then false
      else
        allDiffLoop st
          (((cvars.filter (fun m => !(pyTruthy (st m).value) && m ≠ n)).map
            (fun m => (m, ((st m).domain).erase v))).length + 1)
          ((cvars.filter (fun m => !(pyTruthy (st m).value) && m ≠ n)).map
            (fun m => (m, ((st m).domain).erase v))) := rfl

/-- The built-in all-different test is value-local: it reads the queried
variable's committed value and the other covered variables' values and
domains, nothing else. -/
theorem allDiffConstraint_valueLocal (cvars : List Name) :
    valueLocal (allDiffConstraint cvars) := by
  intro st st' n v h hv
  show allDifferentIsSatisfiable cvars st n v = allDifferentIsSatisfiable cvars st' n v
  have hvals : ∀ m ∈ cvars, (st m).value = (st' m).value := by
    intro m hm
    by_cases hmn : m = n
    · subst hmn; exact hv
    · rw [h m hm hmn]
  rw [allDiffIsSat_eq, allDiffIsSat_eq, hv]
  have hfm : cvars.filterMap (fun m => (st m).value) =
      cvars.filterMap (fun m => (st' m).value) :=
    List.filterMap_congr hvals
  rw [hfm]
  have hfl : cvars.filter (fun m => !(pyTruthy (st m).value) && m ≠ n) =
      cvars.filter (fun m => !(pyTruthy (st' m).value) && m ≠ n) := by
    apply List.filter_congr
    intro m hm
    rw [hvals m hm]
  rw [hfl]
  have htmp : (cvars.filter (fun m => !(pyTruthy (st' m).value) && m ≠ n)).map
        (fun m => (m, ((st m).domain).erase v)) =
      (cvars.filter (fun m => !(pyTruthy (st' m).value) && m ≠ n)).map
        (fun m => (m, ((st' m).domain).erase v)) := by
    apply List.map_congr_left
    intro m hm
    have hmf := List.mem_filter.mp hm
    have hmn : m ≠ n := by
      have hp := hmf.2
      simp at hp
      exact hp.2
    rw [h m hmf.1 hmn]
  rw [htmp]
  have hloop := allDiffLoop_congr st st'
    (((cvars.filter (fun m => !(pyTruthy (st' m).value) && m ≠ n)).map
      (fun m => (m, ((st' m).domain).erase v))).length + 1)
    ((cvars.filter (fun m => !(pyTruthy (st' m).value) && m ≠ n)).map
      (fun m => (m, ((st' m).domain).erase v)))
    (by
      intro e he
      obtain ⟨m, hm, heq⟩ := List.mem_map.mp he
      have hmf := List.mem_filter.mp hm
      have hmn : m ≠ n := by
        have hp := hmf.2
        simp at hp
        exact hp.2
      have he1 : e.1 = m := by rw [← heq]
      rw [he1]
      exact h m hmf.1 hmn)
  rw [hloop]

theorem sumIsSat_fst (p : Problem) (l r : List Name) (st : CState) (n : Name) (v : Val) :
    (sumIsSatisfiable p l r st n v).1 =
      (allTuples (l.map (fun m => (setVar st n { st n with domain := [v] } m).domain))).any
        (fun lt =>
          (allTuples (r.map (fun m => (setVar st n { st n with domain := [v] } m).domain))).any
            (fun rt => lt.sum == sumRight p r rt)) := rfl

/-- The built-in sum test is value-local: it replaces the queried
variable's own domain by the singleton before reading it, and otherwise
reads only the other covered variables' domains. -/
theorem sumConstraint_valueLocal (p : Problem) (l r : List Name) :
    valueLocal (sumConstraint p l r) := by
  intro st st' n v h _
  show (sumIsSatisfiable p l r st n v).1 = (sumIsSatisfiable p l r st' n v).1
  rw [sumIsSat_fst, sumIsSat_fst]
  have hdom : ∀ m ∈ l ++ r, (setVar st n { st n with domain := [v] } m).domain =
      (setVar st' n { st' n with domain := [v] } m).domain := by
    intro m hm
    by_cases hmn : m = n
    · subst hmn; rw [setVar_same, setVar_same]
    · rw [setVar_other _ _ _ _ hmn, setVar_other _ _ _ _ hmn, h m hm hmn]
  have hl : l.map (fun m => (setVar st n { st n with domain := [v] } m).domain) =
      l.map (fun m => (setVar st' n { st' n with domain := [v] } m).domain) :=
    List.map_congr_left (fun m hm => hdom m (List.mem_append_left r hm))
  have hr : r.map (fun m => (setVar st n { st n with domain := [v] } m).domain) =
      r.map (fun m => (setVar st' n { st' n with domain := [v] } m).domain) :=
    List.map_congr_left (fun m hm => hdom m (List.mem_append_right l hm))
  rw [hl, hr]

theorem foldl_congr_mem {α β : Type} (f g : β → α → β) :
    ∀ (l : List α) (acc : β), (∀ b a, a ∈ l → f b a = g b a) →
    l.foldl f acc = l.foldl g acc := by
  intro l
  induction l with
  | nil => intro acc _; rfl
  | cons x xs ih =>
    intro acc h
    simp only [List.foldl_cons]
    rw [h acc x (by simp)]
    exact ih _ (fun b a ha => h b a (by simp [ha]))

/-- The built-in word-square test is value-local: it reads only the other
covered variables' domains (and the static letter map and index table). -/
theorem wordSquareConstraint_valueLocal (lm : Nat → Val → List (List Val))
    (cvars : List Name) : valueLocal (wordSquareConstraint lm cvars) := by
  intro st st' n v h _
  show (!(wordSquareIsSatisfiable lm cvars st n v).isEmpty) =
    (!(wordSquareIsSatisfiable lm cvars st' n v).isEmpty)
  have hws : wordSquareIsSatisfiable lm cvars st n v =
      wordSquareIsSatisfiable lm cvars st' n v := by
    rw [wordSquareIsSatisfiable, wordSquareIsSatisfiable]
    apply foldl_congr_mem
    intro ws m hm
    by_cases hmn : m = n
    · subst hmn; rw [if_pos rfl, if_pos rfl]
    · rw [if_neg hmn, if_neg hmn, h m hm hmn]
  rw [hws]

/-- Claim C8 (amended): provided any two distinct variables share at most
one constraint (the flag's stated precondition) and every constraint's
`is_satisfiable` is value-local — it depends only on the queried
variable's committed value and the states of the constraint's other
covered variables, a property proved above for all three built-in
constraint kinds — a second `_ac3` run with the same scope immediately
after a first one removes no values, returns the empty removed-value
mapping, and leaves the store unchanged. -/
theorem C8_idempotent (p : Problem) (hd : disjointShared p) (hloc : localSat p)
    (f : Nat) (st st' : CState) (scope : Option Name) (rm : RMap)
    (hrun : ac3 p f st scope = some (rm, st')) :
    ∀ f', (ac3Seed p st' scope).length < f' →
      ac3 p f' st' scope = some ([], st') := by
  intro f' hf'
  have hval : ∀ m, (st' m).value = (st m).value :=
    ac3Loop_values p f (ac3Seed p st scope) st [] rm st' hrun
  have hseed : ac3Seed p st' scope = ac3Seed p st scope := ac3Seed_congr p st st' scope hval
  have hinv : ∀ a ∈ ac3Seed p st scope, arcOK p st' a :=
    ac3Loop_invariant p hd hloc f (ac3Seed p st scope) st [] rm st' hrun
      (ac3Seed p st scope) (fun a ha => seed_wf p st scope a ha) (fun _ ha => Or.inr ha)
  rw [ac3, hseed]
  exact ac3Loop_consistent_run p (ac3Seed p st scope) f' st' []
    (by rw [hseed] at hf'; exact hf') (fun a ha => hinv a ha)

/-- Witness for C8 on a problem containing one built-in
`AllDifferentConstraint` over variables 0 and 1 with domains `[5]` and
`[5, 6]`: the first run removes value 5 from variable 1, and an immediate
second run removes nothing and leaves the store unchanged. -/
theorem C8_idempotent_witness :
    disjointShared adP ∧ localSat adP ∧
    ∃ rm st', ac3 adP 16 adInit none = some (rm, st') ∧
      rm = [(1, [5])] ∧
      (ac3Seed adP st' none).length < 4 ∧
      ac3 adP 4 st' none = some ([], st') := by
  have hd : disjointShared adP := by
    intro n m _
    have h1 : (find_constraints_between adP n m).length ≤ (varCons adP n).length :=
      List.length_filter_le _ _
    have h2 : (varCons adP n).length ≤ 1 := by
      have := List.length_filter_le (fun i => covers (conAt adP i) n)
        (List.range adP.cons.length)
      simpa using this
    omega
  have hloc : localSat adP := by
    intro i hi
    have hi1 : i < 1 := by simpa [adP] using hi
    have hi0 : i = 0 := by omega
    subst hi0
    exact allDiffConstraint_valueLocal [0, 1]
  refine ⟨hd, hloc, _, _, rfl, rfl, ?_, ?_⟩
  · decide
  · exact C8_idempotent adP hd hloc 16 adInit _ none _ rfl 4 (by decide)

/-- Claim C9 (confirmed): every built-in constraint kind's
`is_satisfiable` leaves the whole store exactly as it found it —
`SumConstraint` restores the queried variable's temporarily replaced
domain on every return path, and the all-different and word-square tests
only read the store. The constraint data (`cvars`, `leftVars`,
`rightVars`, `lm`) is fixed at construction and carries no per-search
mutable state. -/
theorem C9_constraints_preserve_store (p : Problem) (leftVars rightVars cvars : List Name)
    (lm : Nat → Val → List (List Val)) (st : CState) (n : Name) (v : Val) :
    (sumIsSatisfiable p leftVars rightVars st n v).2 = st ∧
    (allDifferentM cvars st n v).2 = st ∧
    (wordSquareM lm cvars st n v).2 = st := by
  refine ⟨?_, rfl, rfl⟩
  funext m
  by_cases h : m = n
  · subst h; simp [sumIsSatisfiable, setVar]
  · simp [sumIsSatisfiable, setVar, h]

/-- What one `selStep` fold over candidates guarantees: the result is drawn
from the accumulator or the list, has minimal domain size among them, and
has weakly maximal `falsyDegree` among those of equal domain size. -/
theorem sel_fold_spec (p : Problem) (st : CState) :
    ∀ (l : List Name) (c : Name),
    ∃ r, l.foldl (selStep p st) (some c) = some r ∧ (r = c ∨ r ∈ l) ∧
      (st r).domain.length ≤ (st c).domain.length ∧
      (∀ m ∈ l, (st r).domain.length ≤ (st m).domain.length) ∧
      ((st c).domain.length = (st r).domain.length →
        falsyDegree p st c ≤ falsyDegree p st r) ∧
      (∀ m ∈ l, (st m).domain.length = (st r).domain.length →
        falsyDegree p st m ≤ falsyDegree p st r) := by
  intro l
  induction l with
  | nil =>
    intro c
    exact ⟨c, rfl, Or.inl rfl, le_refl _, by simp, fun _ => le_refl _, by simp⟩
  | cons v xs ih =>
    intro c
    by_cases h1 : (st v).domain.length < (st c).domain.length
    · obtain ⟨r, hr, hmem, hlec, hmin, hdegc, hdeg⟩ := ih v
      refine ⟨r, ?_, ?_, ?_, ?_, ?_, ?_⟩
      · simpa [selStep, h1] using hr
      · rcases hmem with h | h
        · exact Or.inr (by simp [h])
        · exact Or.inr (by simp [h])
      · omega
      · intro m hm
        rcases List.mem_cons.mp hm with h | h
        · subst h; exact hlec
        · exact hmin m h
      · intro hcr; omega
      · intro m hm hmr
        rcases List.mem_cons.mp hm with h | h
        · subst h; exact hdegc hmr
        · exact hdeg m h hmr
    · by_cases h2 : (st v).domain.length = (st c).domain.length ∧
          falsyDegree p st c < falsyDegree p st v
      · obtain ⟨r, hr, hmem, hlec, hmin, hdegc, hdeg⟩ := ih v
        refine ⟨r, ?_, ?_, ?_, ?_, ?_, ?_⟩
        · simpa [selStep, h1, h2] using hr
        · rcases hmem with h | h
          · exact Or.inr (by simp [h])
          · exact Or.inr (by simp [h])
        · omega
        · intro m hm
          rcases List.mem_cons.mp hm with h | h
          · subst h; exact hlec
          · exact hmin m h
        · intro hcr
          have hv : falsyDegree p st v ≤ falsyDegree p st r := hdegc (by omega)
          omega
        · intro m hm hmr
          rcases List.mem_cons.mp hm with h | h
          · subst h; exact hdegc hmr
          · exact hdeg m h hmr
      · obtain ⟨r, hr, hmem, hlec, hmin, hdegc, hdeg⟩ := ih c
        refine ⟨r, ?_, ?_, ?_, ?_, ?_, ?_⟩
        · simpa [selStep, h1, h2] using hr
        · rcases hmem with h | h
          · exact Or.inl h
          · exact Or.inr (by simp [h])
        · exact hlec
        · intro m hm
          rcases List.mem_cons.mp hm with h | h
          · subst h; omega
          · exact hmin m h
        · exact hdegc
        · intro m hm hmr
          rcases List.mem_cons.mp hm with h | h
          · subst h
            rcases Nat.eq_or_lt_of_le (not_lt.mp h1) with hvc | hvc
            · have : falsyDegree p st m ≤ falsyDegree p st c := by
                by_contra hcon
                exact h2 ⟨by omega, by omega⟩
              have := hdegc (by omega)
              omega
            · omega
          · exact hdeg m h hmr

/-- Claim C7 (amended): whenever some variable is unassigned, the selection
returns an unassigned variable of minimal current domain size such that no
other unassigned variable of the same domain size has strictly more
neighbors with a Python-falsy value (`None` or `0`) — the code's tie-break
counts falsy values, not just `None`. -/
theorem C7_select_contract (p : Problem) (st : CState)
    (h : ∃ n, n ∈ p.vars ∧ (st n).value = none) :
    ∃ r, select_unassigned_variable p st = some r ∧
      r ∈ p.vars ∧ (st r).value = none ∧
      (∀ m ∈ p.vars, (st m).value = none →
        (st r).domain.length ≤ (st m).domain.length) ∧
      (∀ m ∈ p.vars, (st m).value = none →
        (st m).domain.length = (st r).domain.length →
        falsyDegree p st m ≤ falsyDegree p st r) := by
  obtain ⟨n, hn, hv⟩ := h
  have hmemf : n ∈ p.vars.filter (fun m => (st m).value.isNone) :=
    List.mem_filter.mpr ⟨hn, by simp [hv]⟩
  rw [select_unassigned_variable]
  obtain ⟨x, xs, hx⟩ : ∃ x xs, p.vars.filter (fun m => (st m).value.isNone) = x :: xs := by
    cases hfl : p.vars.filter (fun m => (st m).value.isNone) with
    | nil => rw [hfl] at hmemf; simp at hmemf
    | cons a l => exact ⟨a, l, rfl⟩
  rw [hx]
  obtain ⟨r, hr, hmem, hlec, hmin, hdegc, hdeg⟩ := sel_fold_spec p st xs x
  have hrtv : r ∈ p.vars.filter (fun m => (st m).value.isNone) := by
    rw [hx]
    rcases hmem with hh | hh
    · simp [hh]
    · simp [hh]
  have hrvars := List.mem_filter.mp hrtv
  refine ⟨r, ?_, hrvars.1, by simpa using hrvars.2, ?_, ?_⟩
  · simpa [List.foldl_cons, selStep] using hr
  · intro m hm hmv
    have : m ∈ x :: xs := by
      rw [← hx]; exact List.mem_filter.mpr ⟨hm, by simp [hmv]⟩
    rcases List.mem_cons.mp this with hh | hh
    · subst hh; exact hlec
    · exact hmin m hh
  · intro m hm hmv hmr
    have : m ∈ x :: xs := by
      rw [← hx]; exact List.mem_filter.mpr ⟨hm, by simp [hmv]⟩
    rcases List.mem_cons.mp this with hh | hh
    · subst hh; exact hdegc hmr
    · exact hdeg m hh hmr

/-- Witness for C7 at the concrete selection store. -/
theorem C7_select_contract_witness :
    ∃ r, select_unassigned_variable selP selSt = some r ∧
      r ∈ selP.vars ∧ (selSt r).value = none ∧
      (∀ m ∈ selP.vars, (selSt m).value = none →
        (selSt r).domain.length ≤ (selSt m).domain.length) ∧
      (∀ m ∈ selP.vars, (selSt m).value = none →
        (selSt m).domain.length = (selSt r).domain.length →
        falsyDegree selP selSt m ≤ falsyDegree selP selSt r) :=
  C7_select_contract selP selSt ⟨0, by decide, by decide⟩

/-- Claim C7 counterexample: variable 1 is unassigned with the same minimal
domain size as the returned variable 0 and strictly more unassigned
(value-is-None) neighbors, yet the code returns variable 0 — its tie-break
counts the falsy assigned value 0 of variables 2 and 3 as unassigned. -/
theorem C7_counterexample :
    select_unassigned_variable selP selSt = some 0 ∧
    (selSt 1).value = none ∧
    (selSt 1).domain.length = (selSt 0).domain.length ∧
    (∀ m ∈ selP.vars, (selSt m).value = none →
      (selSt 0).domain.length ≤ (selSt m).domain.length) ∧
    ((neighbors selP 0).filter (fun m => (selSt m).value.isNone)).length <
      ((neighbors selP 1).filter (fun m => (selSt m).value.isNone)).length := by decide

end CSP
